import Mathlib

set_option maxHeartbeats 2000000
set_option maxRecDepth 4000

/-!
Shallow embedding of the openorf search and snippet-extraction engine
(highlighting, cue parsing, cue grouping, top-level search dispatch).
Texts are lists of characters; positions are natural numbers.
JavaScript `toLowerCase` is modelled as a character-wise `Char.toLower`.
-/

/-- One occurrence span, a half-open character range.  The source object
literal `{ start, end }` is rendered with field `stop` for `end` (a Lean
keyword). -/
structure Span where
  start : Nat
  stop : Nat
deriving DecidableEq

/-- One query token, as consumed by `highlightText` (field `value`). -/
structure SearchToken where
  value : List Char
deriving DecidableEq

/-- Model of JavaScript `hay.indexOf(needle, i)` on code-unit sequences:
the least position `j ≥ i` (up to `hay.length`) at which `needle` is a
prefix of the rest of `hay`; `none` when there is no such position.  For
an empty needle and `i ≤ hay.length` this yields `some i`, exactly as
`indexOf` does. -/
def indexOfFrom (hay needle : List Char) (i : Nat) : Option Nat :=
  (List.range (hay.length + 1)).find? (fun j => decide (i ≤ j) && needle.isPrefixOf (hay.drop j))

/-- The scanning `while ((pos = lowerText.indexOf(token.value, pos)) !== -1)`
loop of `highlightText`, with an explicit fuel bound: `none` means the loop
is still running after `fuel` iterations (for a non-empty token the fuel
`lt.length + 1` is proved sufficient below; for the empty token the loop
never finishes, see the C7 theorem). -/
def findLoop (lt tok : List Char) : Nat → Nat → List Span → Option (List Span)
  | 0, _, _ => none
  | fuel + 1, pos, acc =>
    match indexOfFrom lt tok pos with
    | none => some acc
    | some p => findLoop lt tok fuel (p + tok.length) (acc ++ [⟨p, p + tok.length⟩])

/-- All occurrence spans of one token in the lowered text (the span finder
of `highlightText`), run with fuel `lt.length + 1`. -/
def findPositions (lt tok : List Char) : Option (List Span) :=
  findLoop lt tok (lt.length + 1) 0 []

/-- Model of JavaScript `hay.includes(needle)` (used by the cue grouper and
the item filter): some occurrence position exists. -/
def containsSub (hay needle : List Char) : Bool :=
  (indexOfFrom hay needle 0).isSome

/-- The comparator `(a, b) => a.start - b.start` of the `.sort` call, as the
relation it sorts by. -/
def spanLE (a b : Span) : Prop := a.start ≤ b.start

instance : DecidableRel spanLE := fun a b => Nat.decLe a.start b.start

instance (sp : Span) : Decidable (sp.start ≤ sp.stop) := Nat.decLe sp.start sp.stop

/-- The `.sort((a, b) => a.start - b.start)` step (a stable sort by span
start). -/
def sortSpans (l : List Span) : List Span := List.insertionSort spanLE l

/-- One step of the `matches.reduce` merge: peek at the last accumulated
span; extend it in place when the next span starts at or before its end,
push the next span otherwise. -/
def mergeStep (acc : List Span) (m : Span) : List Span :=
  match acc.getLast? with
  | some last =>
    if m.start ≤ last.stop then acc.dropLast ++ [⟨last.start, max last.stop m.stop⟩]
    else acc ++ [m]
  | none => acc ++ [m]

/-- The `matches.reduce((acc, match) => ..., [])` merge of overlapping
spans. -/
def mergeSpans (ms : List Span) : List Span := ms.foldl mergeStep []

/-- Recursive restatement of `mergeSpans` on a non-empty input, carrying the
currently open span; proved equal to the fold below and used in proofs. -/
def mergeRec (cur : Span) : List Span → List Span
  | [] => [cur]
  | m :: rest =>
    if m.start ≤ cur.stop then mergeRec ⟨cur.start, max cur.stop m.stop⟩ rest
    else cur :: mergeRec m rest

/-- Sort-then-merge, the composite `matches.sort(...)` / `reduce` stage of
`highlightText`. -/
def mergeAll (l : List Span) : List Span := mergeSpans (sortSpans l)

/-- The `tokens.flatMap((token) => ...)` collection of spans over all
tokens, in token order; `none` as soon as one token's scan does not
finish. -/
def tokensMatches (lt : List Char) : List SearchToken → Option (List Span)
  | [] => some []
  | t :: ts =>
    match findPositions lt t.value, tokensMatches lt ts with
    | some ps, some rest => some (ps ++ rest)
    | _, _ => none

/-- JavaScript `text.slice(a, b)` for `a ≤ b` (clamped at the length). -/
def sliceL (text : List Char) (a b : Nat) : List Char := (text.drop a).take (b - a)

/-- The chunk-building walk of `highlightText` (`mergedMatches.forEach` plus
the final `chunks.push(text.slice(lastIndex))`), with the markup wrapping
factored out: each emitted slice is tagged `true` when it is the content of
a `<mark>` element and `false` when it is raw text between matches. -/
def buildPieces (text : List Char) : List Span → Nat → List (Bool × List Char)
  | [], lastIndex => [(false, text.drop lastIndex)]
  | m :: rest, lastIndex =>
    (false, sliceL text lastIndex m.start) :: (true, sliceL text m.start m.stop) ::
      buildPieces text rest m.stop

/-- The highlighter as a tagged slice sequence: the early return for an
empty token list yields the whole text as one raw slice, otherwise the
spans of all tokens are collected, sorted, merged and walked. -/
def highlightPieces (text : List Char) (tokens : List SearchToken) :
    Option (List (Bool × List Char)) :=
  if tokens.isEmpty then some [(false, text)]
  else
    match tokensMatches (text.map Char.toLower) tokens with
    | none => none
    | some ms => some (buildPieces text (mergeAll ms) 0)

def markOpen : List Char := "<mark>".data

def markClose : List Char := "</mark>".data

/-- Rendering of the tagged slices into the final string of `highlightText`:
marked slices are wrapped in the `<mark>` element, raw slices are emitted
verbatim, and everything is joined. -/
def renderPieces (ps : List (Bool × List Char)) : List Char :=
  (ps.map (fun p => if p.1 then markOpen ++ p.2 ++ markClose else p.2)).flatten

/-- Concatenation of the slice contents only (markers stripped); the C1
partition property is stated about this. -/
def concatPieces (ps : List (Bool × List Char)) : List Char :=
  (ps.map Prod.snd).flatten

/-- The full `highlightText(text, tokens)`; `none` when the scan loop never
terminates. -/
def highlightText (text : List Char) (tokens : List SearchToken) : Option (List Char) :=
  (highlightPieces text tokens).map renderPieces

/-- One parsed subtitle cue (`ParsedSubtitle` in the source). -/
structure ParsedSubtitle where
  index : Nat
  time : List Char
  text : List Char
deriving DecidableEq

/-- Model of JavaScript `raw.split("\n\n")`: scan left to right, cut at
each (non-overlapping) occurrence of the two-newline separator. -/
def splitBlocksGo : List Char → List Char → List (List Char)
  | [], acc => [acc.reverse]
  | '\n' :: '\n' :: rest, acc => acc.reverse :: splitBlocksGo rest []
  | c :: rest, acc => splitBlocksGo rest (c :: acc)

def splitBlocks (l : List Char) : List (List Char) := splitBlocksGo l []

/-- Model of JavaScript `block.split("\n")`. -/
def splitLinesGo : List Char → List Char → List (List Char)
  | [], acc => [acc.reverse]
  | '\n' :: rest, acc => acc.reverse :: splitLinesGo rest []
  | c :: rest, acc => splitLinesGo rest (c :: acc)

def splitLinesL (l : List Char) : List (List Char) := splitLinesGo l []

/-- Pairing of list elements with their positions starting at `i` (the
`(block, index)` callback arguments of `.map`). -/
def enumFromL (i : Nat) : List α → List (Nat × α)
  | [] => []
  | a :: l => (i, a) :: enumFromL (i + 1) l

/-- The body of the `.map((block, index) => ...)` callback of
`parseSubtitles`: blocks with fewer than 3 lines become `null` (here
`none`); otherwise line 1 is the time label and lines 2.. are joined with
single spaces. -/
def parseBlock (i : Nat) (block : List Char) : Option ParsedSubtitle :=
  let lines := splitLinesL block
  if lines.length < 3 then none
  else some ⟨i, lines.getD 1 [], List.intercalate [' '] (lines.drop 2)⟩

/-- `parseSubtitles`: split the raw transcript on blank lines, skip the
header block, map each remaining block (with its position as `index`) and
drop the `null`s.  The guard on `!this.segment.subtitles` (absent or empty
string) is the `isEmpty` test. -/
def parseSubtitles (raw : List Char) : List ParsedSubtitle :=
  if raw.isEmpty then []
  else (enumFromL 0 ((splitBlocks raw).drop 1)).filterMap (fun p => parseBlock p.1 p.2)

/-- One snippet window `{ matches, context }` (the `matches` field is
keyword-escaped). -/
structure Window where
  «matches» : List ParsedSubtitle
  context : List ParsedSubtitle
deriving DecidableEq

def contextSize : Nat := 5

def dfltCue : ParsedSubtitle := ⟨0, [], []⟩

/-- `createChunk(subtitles, matchIndices, contextSize)`.  `Math.max(0, ...)`
is natural-number subtraction; `subtitles[idx]` is `getD` (all call sites
pass in-range positions); the context filter excludes cues whose *stored*
`index` is a match position, exactly as the source does. -/
def createChunk (subtitles : List ParsedSubtitle) (matchIndices : List Nat) (ctxSize : Nat) :
    Window :=
  let firstMatch := matchIndices.headD 0
  let lastMatch := matchIndices.getLastD 0
  let startIdx := firstMatch - ctxSize
  let endIdx := min (subtitles.length - 1) (lastMatch + ctxSize)
  let «matches» := matchIndices.map (fun idx => subtitles.getD idx dfltCue)
  let contextRange := (subtitles.drop startIdx).take (endIdx + 1 - startIdx)
  let context := contextRange.filter (fun sub => !(matchIndices.contains sub.index))
  ⟨«matches», context⟩

/-- The match test `tokens.some((token) => sub.text.toLowerCase().includes(token.value))`. -/
def cueMatchesTokens (tokens : List SearchToken) (sub : ParsedSubtitle) : Bool :=
  tokens.any (fun t => containsSub (sub.text.map Char.toLower) t.value)

/-- The grouping walk over the sorted match positions (`sortedIndices.forEach`):
`cur` is the currently accumulating group, `last` its last accumulated
element; a position within `gap` of `last` extends the group, any other
position closes it and starts a new one, and the final group is pushed at
the end. -/
def groupLoop (gap : Nat) (cur : List Nat) (last : Nat) : List Nat → List (List Nat)
  | [] => [cur]
  | idx :: rest =>
    if idx ≤ last + gap then groupLoop gap (cur ++ [idx]) idx rest
    else cur :: groupLoop gap [idx] idx rest

def groupIndices (gap : Nat) : List Nat → List (List Nat)
  | [] => []
  | idx :: rest => groupLoop gap [idx] idx rest

def sortNat (l : List Nat) : List Nat := List.insertionSort (fun a b => a ≤ b) l

/-- `getMatchingSubtitles` over an already-parsed cue list (the method
itself calls `parseSubtitles()` first; see `segmentWindows`).  Branch order
follows the source: full-transcript mode first, then the empty-token and
no-match early returns, then grouping with `contextSize * 2` as the gap. -/
def getMatchingSubtitles (subtitles : List ParsedSubtitle) (tokens : List SearchToken)
    (showFullTranscript : Bool) : List Window :=
  if showFullTranscript then
    [⟨if tokens.isEmpty then [] else subtitles.filter (cueMatchesTokens tokens), subtitles⟩]
  else if tokens.isEmpty then []
  else
    let matchingIndices :=
      ((enumFromL 0 subtitles).filter (fun p => cueMatchesTokens tokens p.2)).map (fun p => p.1)
    if matchingIndices.isEmpty then []
    else
      let sortedIndices := sortNat matchingIndices
      (groupIndices (contextSize * 2) sortedIndices).map (fun g => createChunk subtitles g contextSize)

/-- The grouper applied to a raw transcript, as `getMatchingSubtitles`
does. -/
def segmentWindows (raw : List Char) (tokens : List SearchToken) (flag : Bool) : List Window :=
  getMatchingSubtitles (parseSubtitles raw) tokens flag

/-- The fields of `SimplifiedTVItem` that `MainPage.search` touches. -/
structure TVItemL where
  title : List Char
  description : List Char
  subtitles : Option (List Char)
deriving DecidableEq

structure SearchResultL where
  items : List TVItemL
  tokens : List SearchToken
deriving DecidableEq

/-- `MainPage.search()`.  The query held in `this.query` is already trimmed
at the input handler.  The `data/search.ts` module is not part of the
sources, so the full-text `search` call of the long-query branch is a
parameter `searchFn`; the short-query branch is fully embedded: it keeps
the whole data set, narrowed only by the manual broadcast selection, and an
empty token list. -/
def mainPageSearch (searchFn : List Char → List TVItemL → Bool → SearchResultL)
    (query : List Char) (data : List TVItemL) (selectedBroadcasts : List (List Char))
    (subs : Bool) : SearchResultL :=
  if query.length < 3 then
    ⟨if selectedBroadcasts.isEmpty then data
      else data.filter (fun it => selectedBroadcasts.contains it.title), []⟩
  else
    let r := searchFn query data subs
    ⟨if selectedBroadcasts.isEmpty then r.items
      else r.items.filter (fun it => selectedBroadcasts.contains it.title), r.tokens⟩

/-- Canonical well-formed cue list for the C9 scenarios: cue `i` carries
index `i` and the given text. -/
def mkCues (txts : List (List Char)) : List ParsedSubtitle :=
  (List.range txts.length).map (fun i => ⟨i, [], txts.getD i []⟩)

def txtsA : List (List Char) := (List.range 21).map (fun i => if i = 10 then ['b'] else ['a'])

def txtsB : List (List Char) :=
  (List.range 21).map (fun i => if i = 10 ∨ i = 18 then ['b'] else ['a'])

def txtsC : List (List Char) :=
  (List.range 31).map (fun i => if i = 10 ∨ i = 30 then ['b'] else ['a'])

def tokB : SearchToken := ⟨['b']⟩

def badRaw : List Char := "WEBVTT\n\nbad\n\n1\n00:00\nhello".data

def tokHello : SearchToken := ⟨"hello".data⟩

/-- A span is well formed when it does not run backwards (the §3 Span
invariant, minus strictness). -/
def validSpan (sp : Span) : Prop := sp.start ≤ sp.stop

instance (sp : Span) : Decidable (validSpan sp) := Nat.decLe sp.start sp.stop

/-- Two spans in the merged output are separated by at least one
character. -/
def spanSep (a b : Span) : Prop := a.stop < b.start

/-- Doubled-coordinate coverage: span `[s, e)` covers the even points
`2s..2e`; touching spans share a point, spans a character apart leave the
odd point between them uncovered. -/
def covers (sp : Span) (x : Nat) : Prop := 2 * sp.start ≤ x ∧ x ≤ 2 * sp.stop

def covered (l : List Span) (x : Nat) : Prop := ∃ sp ∈ l, covers sp x

example : indexOfFrom "abcab".data "ab".data 0 = some 0 := by decide

example : indexOfFrom "abcab".data "ab".data 1 = some 3 := by decide

example : indexOfFrom "abcab".data "zz".data 0 = none := by decide

example : findPositions "abcab".data "ab".data = some [⟨0, 2⟩, ⟨3, 5⟩] := by decide

example : mergeAll [⟨3, 5⟩, ⟨0, 2⟩, ⟨2, 4⟩] = [⟨0, 5⟩] := by decide

example : highlightText "abcab".data [⟨"ab".data⟩] =
    some "<mark>ab</mark>c<mark>ab</mark>".data := by decide

example : parseSubtitles badRaw = [⟨1, "00:00".data, "hello".data⟩] := by decide

example :
    getMatchingSubtitles (parseSubtitles badRaw) [tokHello] false =
      [⟨[⟨1, "00:00".data, "hello".data⟩], [⟨1, "00:00".data, "hello".data⟩]⟩] := by decide

/-! ### Basic facts about the span finder -/

theorem isPrefixOf_length_le : ∀ (a b : List Char), a.isPrefixOf b = true → a.length ≤ b.length := by
  intro a
  induction a with
  | nil => intro b _; exact Nat.zero_le _
  | cons x xs ih =>
    intro b h
    cases b with
    | nil => simp [List.isPrefixOf] at h
    | cons y ys =>
      simp only [List.isPrefixOf, Bool.and_eq_true] at h
      simpa [Nat.succ_le_succ_iff] using ih ys h.2

theorem indexOfFrom_some {hay needle : List Char} {i p : Nat}
    (h : indexOfFrom hay needle i = some p) :
    i ≤ p ∧ p ≤ hay.length ∧ needle.isPrefixOf (hay.drop p) = true := by
  unfold indexOfFrom at h
  have hp := List.find?_some h
  have hm := List.mem_of_find?_eq_some h
  simp only [Bool.and_eq_true, decide_eq_true_eq] at hp
  rw [List.mem_range] at hm
  exact ⟨hp.1, Nat.lt_succ_iff.mp hm, hp.2⟩

theorem find?_range'_le (i : Nat) :
    ∀ (n s : Nat), s ≤ i → i < s + n →
      (List.range' s n).find? (fun j => decide (i ≤ j)) = some i := by
  intro n
  induction n with
  | zero => intro s hs hin; omega
  | succ n ih =>
    intro s hs hin
    rw [List.range'_succ]
    by_cases hcase : i ≤ s
    · have : i = s := Nat.le_antisymm hcase hs
      subst this
      simp [List.find?]
    · have hs' : s + 1 ≤ i := by omega
      have : (decide (i ≤ s)) = false := by simp; omega
      simp only [List.find?, this]
      exact ih (s + 1) hs' (by omega)

theorem indexOfFrom_nil_needle {hay : List Char} {i : Nat} (h : i ≤ hay.length) :
    indexOfFrom hay [] i = some i := by
  unfold indexOfFrom
  have hpre : ∀ j : Nat, (List.isPrefixOf ([] : List Char) (hay.drop j)) = true := by
    intro j
    cases hay.drop j <;> rfl
  have hfun : (fun j => decide (i ≤ j) && List.isPrefixOf ([] : List Char) (hay.drop j))
      = (fun j : Nat => decide (i ≤ j)) := by
    funext j
    rw [hpre j, Bool.and_true]
  rw [hfun, List.range_eq_range']
  exact find?_range'_le i (hay.length + 1) 0 (Nat.zero_le i) (by omega)

theorem findLoop_empty_none (lt : List Char) :
    ∀ (fuel pos : Nat) (acc : List Span), pos ≤ lt.length →
      findLoop lt [] fuel pos acc = none := by
  intro fuel
  induction fuel with
  | zero => intro pos acc _; rfl
  | succ fuel ih =>
    intro pos acc hpos
    unfold findLoop
    rw [indexOfFrom_nil_needle hpos]
    simpa using ih pos (acc ++ [⟨pos, pos + 0⟩]) hpos

theorem findLoop_isSome {lt tok : List Char} (htok : tok ≠ []) :
    ∀ (fuel pos : Nat) (acc : List Span), lt.length - pos < fuel →
      ∃ res, findLoop lt tok fuel pos acc = some res := by
  intro fuel
  induction fuel with
  | zero => intro pos acc h; omega
  | succ fuel ih =>
    intro pos acc h
    unfold findLoop
    cases hidx : indexOfFrom lt tok pos with
    | none => exact ⟨acc, rfl⟩
    | some p =>
      obtain ⟨hip, hple, hpre⟩ := indexOfFrom_some hidx
      have hlen : tok.length ≤ lt.length - p := by
        have := isPrefixOf_length_le tok (lt.drop p) hpre
        simpa [List.length_drop] using this
      have htokpos : 0 < tok.length := List.length_pos.mpr htok
      exact ih (p + tok.length) (acc ++ [⟨p, p + tok.length⟩]) (by omega)

theorem findLoop_mem_spec {lt tok : List Char} (P : Span → Prop)
    (hpush : ∀ p q : Nat, indexOfFrom lt tok p = some q → P ⟨q, q + tok.length⟩) :
    ∀ (fuel pos : Nat) (acc res : List Span), findLoop lt tok fuel pos acc = some res →
      (∀ sp ∈ acc, P sp) → ∀ sp ∈ res, P sp := by
  intro fuel
  induction fuel with
  | zero => intro pos acc res h; simp [findLoop] at h
  | succ fuel ih =>
    intro pos acc res h hacc
    unfold findLoop at h
    cases hidx : indexOfFrom lt tok pos with
    | none =>
      rw [hidx] at h
      cases h
      exact hacc
    | some p =>
      rw [hidx] at h
      refine ih (p + tok.length) (acc ++ [⟨p, p + tok.length⟩]) res h ?_
      intro sp hsp
      rw [List.mem_append] at hsp
      cases hsp with
      | inl hl => exact hacc sp hl
      | inr hr =>
        simp only [List.mem_singleton] at hr
        subst hr
        exact hpush pos p hidx

theorem findPositions_isSome {lt tok : List Char} (htok : tok ≠ []) :
    ∃ res, findPositions lt tok = some res :=
  findLoop_isSome htok (lt.length + 1) 0 [] (by omega)

/-- Claim C7: the spec says the span finder on an empty token terminates
with no spans.  In the code the scan loop never terminates on an empty
token: `indexOf("", pos)` returns `pos` itself and the position advances by
the token length 0, so for every fuel bound the loop is still running
(first conjunct), in particular at the canonical fuel of `findPositions`
(second conjunct). -/
theorem spanFinder_empty_token_diverges :
    (∀ (text : List Char) (fuel : Nat) (acc : List Span),
        findLoop (text.map Char.toLower) [] fuel 0 acc = none) ∧
    (∀ text : List Char, findPositions (text.map Char.toLower) [] = none) := by
  constructor
  · intro text fuel acc
    exact findLoop_empty_none (text.map Char.toLower) fuel 0 acc (Nat.zero_le _)
  · intro text
    exact findLoop_empty_none (text.map Char.toLower) (_ + 1) 0 [] (Nat.zero_le _)

/-- Claim C6: every occurrence span the span finder produces for a
non-empty token satisfies `0 ≤ start < stop ≤ len(text)`, with `len(text)`
the length of the original (not case-folded) text. -/
theorem spanFinder_spans_in_bounds :
    ∀ (text tok : List Char) (spans : List Span), tok ≠ [] →
      findPositions (text.map Char.toLower) tok = some spans →
      ∀ sp ∈ spans, 0 ≤ sp.start ∧ sp.start < sp.stop ∧ sp.stop ≤ text.length := by
  intro text tok spans htok hfind sp hsp
  have hbound : sp.start < sp.stop ∧ sp.stop ≤ (text.map Char.toLower).length := by
    refine findLoop_mem_spec
      (fun sp => sp.start < sp.stop ∧ sp.stop ≤ (text.map Char.toLower).length)
      ?_ (_ + 1) 0 [] spans hfind (by simp) sp hsp
    intro p q hidx
    obtain ⟨hip, hqle, hpre⟩ := indexOfFrom_some hidx
    have hlen : tok.length ≤ (text.map Char.toLower).length - q := by
      have := isPrefixOf_length_le tok ((text.map Char.toLower).drop q) hpre
      simpa [List.length_drop] using this
    have htokpos : 0 < tok.length := List.length_pos.mpr htok
    constructor
    · simpa using htokpos
    · simpa using (by omega : q + tok.length ≤ (text.map Char.toLower).length)
  rw [List.length_map] at hbound
  exact ⟨Nat.zero_le _, hbound.1, hbound.2⟩

/-- Witness for C6 at a concrete input: the spans of token `a` in text
`aba`. -/
theorem spanFinder_spans_in_bounds_witness :
    0 ≤ (⟨0, 1⟩ : Span).start ∧ (⟨0, 1⟩ : Span).start < (⟨0, 1⟩ : Span).stop ∧
      (⟨0, 1⟩ : Span).stop ≤ "aba".data.length :=
  spanFinder_spans_in_bounds "aba".data "a".data [⟨0, 1⟩, ⟨2, 3⟩] (by decide) (by decide)
    ⟨0, 1⟩ (by decide)

/-! ### The fold/recursion correspondence for the span merge -/

theorem foldl_mergeStep_concat :
    ∀ (ms pre : List Span) (cur : Span),
      List.foldl mergeStep (pre ++ [cur]) ms = pre ++ mergeRec cur ms := by
  intro ms
  induction ms with
  | nil => intro pre cur; simp [mergeRec]
  | cons m rest ih =>
    intro pre cur
    rw [List.foldl_cons]
    have hstep : mergeStep (pre ++ [cur]) m =
        if m.start ≤ cur.stop then pre ++ [⟨cur.start, max cur.stop m.stop⟩]
        else (pre ++ [cur]) ++ [m] := by
      unfold mergeStep
      rw [List.getLast?_concat]
      by_cases h : m.start ≤ cur.stop
      · simp [h, List.dropLast_concat]
      · simp [h]
    by_cases h : m.start ≤ cur.stop
    · rw [hstep, if_pos h, ih pre ⟨cur.start, max cur.stop m.stop⟩]
      simp [mergeRec, h]
    · rw [hstep, if_neg h, ih (pre ++ [cur]) m]
      simp [mergeRec, h]

theorem mergeSpans_cons (c : Span) (ms : List Span) : mergeSpans (c :: ms) = mergeRec c ms := by
  unfold mergeSpans
  rw [List.foldl_cons]
  have : mergeStep [] c = [] ++ [c] := rfl
  rw [this, foldl_mergeStep_concat]
  simp

theorem mergeRec_head :
    ∀ (rest : List Span) (cur : Span),
      ∃ e t, mergeRec cur rest = ⟨cur.start, e⟩ :: t ∧ cur.stop ≤ e := by
  intro rest
  induction rest with
  | nil => intro cur; exact ⟨cur.stop, [], rfl, Nat.le_refl _⟩
  | cons m rest ih =>
    intro cur
    by_cases h : m.start ≤ cur.stop
    · obtain ⟨e, t, heq, hle⟩ := ih ⟨cur.start, max cur.stop m.stop⟩
      refine ⟨e, t, ?_, ?_⟩
      · simpa [mergeRec, h] using heq
      · exact Nat.le_trans (Nat.le_max_left _ _) hle
    · exact ⟨cur.stop, mergeRec m rest, by simp [mergeRec, h], Nat.le_refl _⟩

theorem mergeRec_valid :
    ∀ (rest : List Span) (cur : Span), validSpan cur → (∀ sp ∈ rest, validSpan sp) →
      ∀ sp ∈ mergeRec cur rest, validSpan sp := by
  intro rest
  induction rest with
  | nil =>
    intro cur hcur _ sp hsp
    simp only [mergeRec, List.mem_singleton] at hsp
    exact hsp ▸ hcur
  | cons m rest ih =>
    intro cur hcur hrest sp hsp
    by_cases h : m.start ≤ cur.stop
    · rw [show mergeRec cur (m :: rest) = mergeRec ⟨cur.start, max cur.stop m.stop⟩ rest from by
        simp [mergeRec, h]] at hsp
      refine ih ⟨cur.start, max cur.stop m.stop⟩ ?_ (fun x hx => hrest x (List.mem_cons_of_mem _ hx)) sp hsp
      exact Nat.le_trans hcur (Nat.le_max_left _ _)
    · rw [show mergeRec cur (m :: rest) = cur :: mergeRec m rest from by simp [mergeRec, h]] at hsp
      rcases List.mem_cons.mp hsp with hl | hr
      · exact hl ▸ hcur
      · exact ih m (hrest m (List.mem_cons_self _ _)) (fun x hx => hrest x (List.mem_cons_of_mem _ hx)) sp hr

theorem mergeRec_chain_sep :
    ∀ (rest : List Span) (cur : Span), List.Chain' spanSep (mergeRec cur rest) := by
  intro rest
  induction rest with
  | nil => intro cur; exact List.chain'_singleton cur
  | cons m rest ih =>
    intro cur
    by_cases h : m.start ≤ cur.stop
    · simpa [mergeRec, h] using ih ⟨cur.start, max cur.stop m.stop⟩
    · rw [show mergeRec cur (m :: rest) = cur :: mergeRec m rest from by simp [mergeRec, h]]
      obtain ⟨e, t, heq, _⟩ := mergeRec_head rest m
      rw [heq]
      refine List.chain'_cons.mpr ⟨?_, heq ▸ ih m⟩
      simp only [spanSep]
      omega

/-! ### Slice gluing and the highlight partition -/

theorem slice_glue (text : List Char) {a b : Nat} (hab : a ≤ b) :
    sliceL text a b ++ text.drop b = text.drop a := by
  have hdrop : text.drop b = (text.drop a).drop (b - a) := by
    rw [List.drop_drop]
    congr 1
    omega
  rw [sliceL, hdrop, List.take_append_drop]

theorem buildPieces_concat (text : List Char) :
    ∀ (merged : List Span) (lastIndex : Nat),
      (∀ sp ∈ merged, validSpan sp) → List.Chain' spanSep merged →
      (∀ hd t, merged = hd :: t → lastIndex ≤ hd.start) →
      concatPieces (buildPieces text merged lastIndex) = text.drop lastIndex := by
  intro merged
  induction merged with
  | nil => intro lastIndex _ _ _; simp [buildPieces, concatPieces]
  | cons m rest ih =>
    intro lastIndex hvalid hchain hhead
    have hrec : concatPieces (buildPieces text rest m.stop) = text.drop m.stop := by
      refine ih m.stop (fun sp hsp => hvalid sp (List.mem_cons_of_mem _ hsp)) hchain.tail ?_
      intro hd t ht
      subst ht
      have : spanSep m hd := (List.chain'_cons.mp hchain).1
      exact Nat.le_of_lt this
    have hm : validSpan m := hvalid m (List.mem_cons_self _ _)
    have hlast : lastIndex ≤ m.start := hhead m rest rfl
    simp only [buildPieces, concatPieces, List.map_cons, List.flatten_cons]
    rw [show concatPieces (buildPieces text rest m.stop)
        = (List.map Prod.snd (buildPieces text rest m.stop)).flatten from rfl] at hrec
    rw [hrec, slice_glue text hm, slice_glue text hlast]

theorem tokensMatches_some {lt : List Char} :
    ∀ (tokens : List SearchToken), (∀ t ∈ tokens, t.value ≠ []) →
      ∃ ms, tokensMatches lt tokens = some ms ∧ ∀ sp ∈ ms, validSpan sp := by
  intro tokens
  induction tokens with
  | nil => intro _; exact ⟨[], rfl, by simp⟩
  | cons t ts ih =>
    intro htoks
    obtain ⟨ps, hps⟩ := @findPositions_isSome lt t.value (htoks t (List.mem_cons_self _ _))
    obtain ⟨rest, hrest, hrestv⟩ := ih (fun x hx => htoks x (List.mem_cons_of_mem _ hx))
    have hpsv : ∀ sp ∈ ps, validSpan sp := by
      refine findLoop_mem_spec validSpan ?_ (_ + 1) 0 [] ps hps (by simp)
      intro p q _
      exact Nat.le_add_right _ _
    refine ⟨ps ++ rest, ?_, ?_⟩
    · simp only [tokensMatches, hps, hrest]
    · intro sp hsp
      rcases List.mem_append.mp hsp with hl | hr
      · exact hpsv sp hl
      · exact hrestv sp hr

theorem sortSpans_perm (l : List Span) : (sortSpans l).Perm l := List.perm_insertionSort _ l

theorem sortSpans_mem {l : List Span} {sp : Span} (h : sp ∈ sortSpans l) : sp ∈ l :=
  (sortSpans_perm l).mem_iff.mp h

/-- Claim C1: for every text and token list (tokens being non-empty strings,
per the §3 Token invariant), the highlighter terminates and the slices it
emits — raw slices and the contents of marked slices, in order — concatenate
back to exactly the original text. -/
theorem highlight_partition :
    ∀ (text : List Char) (tokens : List SearchToken), (∀ t ∈ tokens, t.value ≠ []) →
      Option.map concatPieces (highlightPieces text tokens) = some text := by
  intro text tokens htoks
  unfold highlightPieces
  by_cases hemp : tokens.isEmpty
  · simp [hemp, concatPieces]
  · rw [Bool.not_eq_true] at hemp
    obtain ⟨ms, hms, hvalid⟩ := @tokensMatches_some (text.map Char.toLower) tokens htoks
    rw [hemp, hms]
    simp only [Bool.false_eq_true, if_false, Option.map_some']
    congr 1
    cases hs : sortSpans ms with
    | nil => simp [mergeAll, hs, mergeSpans, buildPieces, concatPieces]
    | cons c r =>
      have hvalid' : ∀ sp ∈ c :: r, validSpan sp := by
        intro sp hsp
        exact hvalid sp (sortSpans_mem (hs ▸ hsp))
      rw [mergeAll, hs, mergeSpans_cons]
      rw [buildPieces_concat text (mergeRec c r) 0
        (mergeRec_valid r c (hvalid' c (List.mem_cons_self _ _))
          (fun sp hsp => hvalid' sp (List.mem_cons_of_mem _ hsp)))
        (mergeRec_chain_sep r c) (fun _ _ _ => Nat.zero_le _)]
      exact List.drop_zero text

/-- Witness for C1 at a concrete input: highlighting `abcab` with token
`ab`. -/
theorem highlight_partition_witness :
    Option.map concatPieces (highlightPieces "abcab".data [⟨"ab".data⟩]) = some "abcab".data :=
  highlight_partition "abcab".data [⟨"ab".data⟩] (by decide)

theorem findPositions_no_match {lt tok : List Char} (h : containsSub lt tok = false) :
    findPositions lt tok = some [] := by
  have hnone : indexOfFrom lt tok 0 = none := by
    unfold containsSub at h
    exact Option.not_isSome_iff_eq_none.mp (by simp [h])
  unfold findPositions findLoop
  rw [hnone]

theorem tokensMatches_no_match {lt : List Char} :
    ∀ (tokens : List SearchToken), (∀ t ∈ tokens, containsSub lt t.value = false) →
      tokensMatches lt tokens = some [] := by
  intro tokens
  induction tokens with
  | nil => intro _; rfl
  | cons t ts ih =>
    intro h
    have ht := findPositions_no_match (h t (List.mem_cons_self _ _))
    have hts := ih (fun x hx => h x (List.mem_cons_of_mem _ hx))
    simp only [tokensMatches, ht, hts]
    rfl

/-- Claim C10: on a non-empty token list none of whose tokens occurs
case-insensitively in the text, the highlighter returns the text unchanged —
no marker is inserted. -/
theorem highlight_no_match_identity :
    ∀ (text : List Char) (tokens : List SearchToken), tokens ≠ [] →
      (∀ t ∈ tokens, containsSub (text.map Char.toLower) t.value = false) →
      highlightText text tokens = some text := by
  intro text tokens hne hnomatch
  have hemp : tokens.isEmpty = false := by
    cases tokens with
    | nil => exact absurd rfl hne
    | cons t ts => rfl
  unfold highlightText highlightPieces
  rw [hemp, tokensMatches_no_match tokens hnomatch]
  simp only [Bool.false_eq_true, if_false]
  have hmerge : mergeAll [] = [] := rfl
  rw [hmerge]
  simp [buildPieces, renderPieces]

/-- Witness for C10 at a concrete input: token `zz` does not occur in
`abc`. -/
theorem highlight_no_match_identity_witness :
    highlightText "abc".data [⟨"zz".data⟩] = some "abc".data :=
  highlight_no_match_identity "abc".data [⟨"zz".data⟩] (by decide) (by decide)

/-! ### Coverage semantics of span lists and uniqueness of the merged form -/

theorem covered_cons {a : Span} {l : List Span} {x : Nat} :
    covered (a :: l) x ↔ covers a x ∨ covered l x := by
  simp [covered, List.mem_cons, or_and_right, exists_or, exists_eq_left]

theorem covered_perm {l1 l2 : List Span} (h : l1.Perm l2) (x : Nat) :
    covered l1 x ↔ covered l2 x := by
  unfold covered
  constructor
  · rintro ⟨sp, hm, hc⟩
    exact ⟨sp, h.mem_iff.mp hm, hc⟩
  · rintro ⟨sp, hm, hc⟩
    exact ⟨sp, h.mem_iff.mpr hm, hc⟩

theorem sep_head_lt :
    ∀ (t : List Span) (a : Span), List.Chain' spanSep (a :: t) →
      (∀ sp ∈ a :: t, validSpan sp) → ∀ sp ∈ t, a.stop < sp.start := by
  intro t
  induction t with
  | nil => intro a _ _ sp hsp; simp at hsp
  | cons c t' ih =>
    intro a hchain hv sp hsp
    have hac : spanSep a c := (List.chain'_cons.mp hchain).1
    rcases List.mem_cons.mp hsp with hl | hr
    · exact hl ▸ hac
    · have hcsp : c.stop < sp.start := by
        refine ih c (List.chain'_cons.mp hchain).2 ?_ sp hr
        intro y hy
        exact hv y (List.mem_cons_of_mem _ hy)
      have hvc : validSpan c := hv c (List.mem_cons_of_mem _ (List.mem_cons_self _ _))
      unfold spanSep at hac
      unfold validSpan at hvc
      omega

theorem sep_start_le {t : List Span} {a : Span} (hchain : List.Chain' spanSep (a :: t))
    (hv : ∀ sp ∈ a :: t, validSpan sp) : ∀ sp ∈ a :: t, a.start ≤ sp.start := by
  intro sp hsp
  rcases List.mem_cons.mp hsp with hl | hr
  · exact hl ▸ Nat.le_refl _
  · have h1 := sep_head_lt t a hchain hv sp hr
    have h2 : validSpan a := hv a (List.mem_cons_self _ _)
    unfold validSpan at h2
    omega

theorem sep_covered_unique :
    ∀ (l1 l2 : List Span), List.Chain' spanSep l1 → List.Chain' spanSep l2 →
      (∀ sp ∈ l1, validSpan sp) → (∀ sp ∈ l2, validSpan sp) →
      (∀ x, covered l1 x ↔ covered l2 x) → l1 = l2 := by
  intro l1
  induction l1 with
  | nil =>
    intro l2 _ _ _ hv2 hcov
    cases l2 with
    | nil => rfl
    | cons b t2 =>
      exfalso
      have hb : covered (b :: t2) (2 * b.start) := by
        refine ⟨b, List.mem_cons_self _ _, Nat.le_refl _, ?_⟩
        have := hv2 b (List.mem_cons_self _ _)
        unfold validSpan at this
        omega
      have : covered [] (2 * b.start) := (hcov _).mpr hb
      simp [covered] at this
  | cons a t1 ih =>
    intro l2 hc1 hc2 hv1 hv2 hcov
    cases l2 with
    | nil =>
      exfalso
      have ha : covered (a :: t1) (2 * a.start) := by
        refine ⟨a, List.mem_cons_self _ _, Nat.le_refl _, ?_⟩
        have := hv1 a (List.mem_cons_self _ _)
        unfold validSpan at this
        omega
      have : covered [] (2 * a.start) := (hcov _).mp ha
      simp [covered] at this
    | cons b t2 =>
      have hva : validSpan a := hv1 a (List.mem_cons_self _ _)
      have hvb : validSpan b := hv2 b (List.mem_cons_self _ _)
      have hstart : a.start = b.start := by
        have h1 : b.start ≤ a.start := by
          have hcA : covered (a :: t1) (2 * a.start) :=
            ⟨a, List.mem_cons_self _ _, Nat.le_refl _, by unfold validSpan at hva; omega⟩
          obtain ⟨sp, hm, hcv⟩ := (hcov _).mp hcA
          have := sep_start_le hc2 hv2 sp hm
          have := hcv.1
          omega
        have h2 : a.start ≤ b.start := by
          have hcB : covered (b :: t2) (2 * b.start) :=
            ⟨b, List.mem_cons_self _ _, Nat.le_refl _, by unfold validSpan at hvb; omega⟩
          obtain ⟨sp, hm, hcv⟩ := (hcov _).mpr hcB
          have := sep_start_le hc1 hv1 sp hm
          have := hcv.1
          omega
        omega
      have hstop : a.stop = b.stop := by
        have h1 : ¬ a.stop < b.stop := by
          intro hlt
          have hcB : covered (b :: t2) (2 * a.stop + 1) := by
            refine ⟨b, List.mem_cons_self _ _, ?_, ?_⟩
            · unfold validSpan at hva; omega
            · omega
          obtain ⟨sp, hm, hcv⟩ := (hcov _).mpr hcB
          rcases List.mem_cons.mp hm with hl | hr
          · subst hl
            have := hcv.2
            omega
          · have := sep_head_lt t1 a hc1 hv1 sp hr
            have := hcv.1
            omega
        have h2 : ¬ b.stop < a.stop := by
          intro hlt
          have hcA : covered (a :: t1) (2 * b.stop + 1) := by
            refine ⟨a, List.mem_cons_self _ _, ?_, ?_⟩
            · unfold validSpan at hvb; omega
            · omega
          obtain ⟨sp, hm, hcv⟩ := (hcov _).mp hcA
          rcases List.mem_cons.mp hm with hl | hr
          · subst hl
            have := hcv.2
            omega
          · have := sep_head_lt t2 b hc2 hv2 sp hr
            have := hcv.1
            omega
        omega
      have hab : a = b := by
        have h : (⟨a.start, a.stop⟩ : Span) = ⟨b.start, b.stop⟩ := by rw [hstart, hstop]
        exact h
      subst hab
      have htails : ∀ x, covered t1 x ↔ covered t2 x := by
        intro x
        constructor
        · rintro ⟨sp, hm, hcv⟩
          have hx : covered (a :: t2) x := (hcov x).mp ⟨sp, List.mem_cons_of_mem _ hm, hcv⟩
          obtain ⟨sp', hm', hcv'⟩ := hx
          rcases List.mem_cons.mp hm' with hl | hr
          · exfalso
            rw [hl] at hcv'
            have h1 := sep_head_lt t1 a hc1 hv1 sp hm
            have h2 := hcv.1
            have h3 := hcv'.2
            omega
          · exact ⟨sp', hr, hcv'⟩
        · rintro ⟨sp, hm, hcv⟩
          have hx : covered (a :: t1) x := (hcov x).mpr ⟨sp, List.mem_cons_of_mem _ hm, hcv⟩
          obtain ⟨sp', hm', hcv'⟩ := hx
          rcases List.mem_cons.mp hm' with hl | hr
          · exfalso
            rw [hl] at hcv'
            have h1 := sep_head_lt t2 a hc2 hv2 sp hm
            have h2 := hcv.1
            have h3 := hcv'.2
            omega
          · exact ⟨sp', hr, hcv'⟩
      have := ih t2 hc1.tail hc2.tail
        (fun sp hsp => hv1 sp (List.mem_cons_of_mem _ hsp))
        (fun sp hsp => hv2 sp (List.mem_cons_of_mem _ hsp)) htails
      rw [this]

instance : IsTotal Span spanLE := ⟨fun a b => Nat.le_total a.start b.start⟩

instance : IsTrans Span spanLE := ⟨fun _ _ _ h1 h2 => Nat.le_trans h1 h2⟩

theorem sortSpans_sorted (l : List Span) : List.Sorted spanLE (sortSpans l) :=
  List.sorted_insertionSort spanLE l

theorem mergeRec_covered :
    ∀ (rest : List Span) (cur : Span), List.Sorted spanLE (cur :: rest) →
      (∀ sp ∈ cur :: rest, validSpan sp) →
      ∀ x, covered (mergeRec cur rest) x ↔ covered (cur :: rest) x := by
  intro rest
  induction rest with
  | nil => intro cur _ _ x; simp [mergeRec]
  | cons m rest ih =>
    intro cur hsorted hvalid x
    have hcm : spanLE cur m := (List.sorted_cons.mp hsorted).1 m (List.mem_cons_self _ _)
    have hvcur : validSpan cur := hvalid cur (List.mem_cons_self _ _)
    have hvm : validSpan m := hvalid m (List.mem_cons_of_mem _ (List.mem_cons_self _ _))
    by_cases h : m.start ≤ cur.stop
    · rw [show mergeRec cur (m :: rest) = mergeRec ⟨cur.start, max cur.stop m.stop⟩ rest from by
        simp [mergeRec, h]]
      have hsorted' : List.Sorted spanLE ((⟨cur.start, max cur.stop m.stop⟩ : Span) :: rest) := by
        rw [List.sorted_cons]
        refine ⟨?_, ((List.sorted_cons.mp hsorted).2.tail : _)⟩
        intro b hb
        exact (List.sorted_cons.mp hsorted).1 b (List.mem_cons_of_mem _ hb)
      have hvalid' : ∀ sp ∈ (⟨cur.start, max cur.stop m.stop⟩ : Span) :: rest, validSpan sp := by
        intro sp hsp
        rcases List.mem_cons.mp hsp with hl | hr
        · rw [hl]
          unfold validSpan at hvcur ⊢
          simp only
          omega
        · exact hvalid sp (List.mem_cons_of_mem _ (List.mem_cons_of_mem _ hr))
      rw [ih ⟨cur.start, max cur.stop m.stop⟩ hsorted' hvalid' x]
      rw [covered_cons, covered_cons, covered_cons]
      have hmerged : covers ⟨cur.start, max cur.stop m.stop⟩ x ↔ covers cur x ∨ covers m x := by
        unfold covers validSpan at *
        unfold spanLE at hcm
        simp only at *
        omega
      tauto
    · rw [show mergeRec cur (m :: rest) = cur :: mergeRec m rest from by simp [mergeRec, h]]
      rw [covered_cons, covered_cons]
      rw [ih m (List.sorted_cons.mp hsorted).2
        (fun sp hsp => hvalid sp (List.mem_cons_of_mem _ hsp)) x]

/-- Claim C5: the sort-then-reduce merge of `highlightText` computes the
interval union.  For two well-formed spans (touching counts as overlap,
`a.end == b.start`) the merge of the pair yields the single union span; two
spans separated by at least one character stay distinct; and the merged
output is invariant under any permutation of the input span list. -/
theorem span_merge_correct :
    (∀ a b : Span, validSpan a → validSpan b → a.start ≤ b.start → b.start ≤ a.stop →
        mergeAll [a, b] = [⟨a.start, max a.stop b.stop⟩]) ∧
    (∀ a b : Span, validSpan a → validSpan b → a.stop < b.start →
        mergeAll [a, b] = [a, b]) ∧
    (∀ l1 l2 : List Span, (∀ sp ∈ l1, validSpan sp) → l1.Perm l2 →
        mergeAll l1 = mergeAll l2) := by
  refine ⟨?_, ?_, ?_⟩
  · intro a b _ _ hab htouch
    have hsort : sortSpans [a, b] = [a, b] := by
      unfold sortSpans
      simp [List.insertionSort, List.orderedInsert, spanLE, hab]
    unfold mergeAll
    rw [hsort, mergeSpans_cons]
    simp [mergeRec, htouch]
  · intro a b hva _ hsep
    have hab : a.start ≤ b.start := by unfold validSpan at hva; omega
    have hsort : sortSpans [a, b] = [a, b] := by
      unfold sortSpans
      simp [List.insertionSort, List.orderedInsert, spanLE, hab]
    have hnot : ¬ b.start ≤ a.stop := by omega
    unfold mergeAll
    rw [hsort, mergeSpans_cons]
    simp [mergeRec, hnot]
  · intro l1 l2 hv1 hperm
    have hv2 : ∀ sp ∈ l2, validSpan sp := fun sp h => hv1 sp (hperm.mem_iff.mpr h)
    cases hs1 : sortSpans l1 with
    | nil =>
      have hl1 : l1 = [] := by
        have hp := sortSpans_perm l1
        rw [hs1] at hp
        exact hp.symm.eq_nil
      have hl2 : l2 = [] := by
        rw [hl1] at hperm
        exact hperm.symm.eq_nil
      unfold mergeAll
      rw [hs1, hl2]
      rfl
    | cons c1 r1 =>
      cases hs2 : sortSpans l2 with
      | nil =>
        exfalso
        have hl2 : l2 = [] := by
          have hp := sortSpans_perm l2
          rw [hs2] at hp
          exact hp.symm.eq_nil
        have hl1 : l1 = [] := by
          rw [hl2] at hperm
          exact hperm.eq_nil
        rw [hl1] at hs1
        simp [sortSpans, List.insertionSort] at hs1
      | cons c2 r2 =>
        have hperm1 : (c1 :: r1).Perm l1 := by rw [← hs1]; exact sortSpans_perm l1
        have hperm2 : (c2 :: r2).Perm l2 := by rw [← hs2]; exact sortSpans_perm l2
        have hval1 : ∀ sp ∈ c1 :: r1, validSpan sp := fun sp h => hv1 sp (hperm1.mem_iff.mp h)
        have hval2 : ∀ sp ∈ c2 :: r2, validSpan sp := fun sp h => hv2 sp (hperm2.mem_iff.mp h)
        have hsort1 : List.Sorted spanLE (c1 :: r1) := by rw [← hs1]; exact sortSpans_sorted l1
        have hsort2 : List.Sorted spanLE (c2 :: r2) := by rw [← hs2]; exact sortSpans_sorted l2
        unfold mergeAll
        rw [hs1, hs2, mergeSpans_cons, mergeSpans_cons]
        refine sep_covered_unique (mergeRec c1 r1) (mergeRec c2 r2)
          (mergeRec_chain_sep r1 c1) (mergeRec_chain_sep r2 c2)
          (mergeRec_valid r1 c1 (hval1 c1 (List.mem_cons_self _ _))
            (fun sp h => hval1 sp (List.mem_cons_of_mem _ h)))
          (mergeRec_valid r2 c2 (hval2 c2 (List.mem_cons_self _ _))
            (fun sp h => hval2 sp (List.mem_cons_of_mem _ h))) ?_
        intro x
        rw [mergeRec_covered r1 c1 hsort1 hval1 x, mergeRec_covered r2 c2 hsort2 hval2 x]
        exact ((covered_perm hperm1 x).trans (covered_perm hperm x)).trans
          (covered_perm hperm2 x).symm

/-- Witness for C5 at concrete inputs: a touching pair merges to the union
span, a separated pair stays distinct, and swapping a pair leaves the
result unchanged. -/
theorem span_merge_correct_witness :
    mergeAll [⟨0, 2⟩, ⟨2, 5⟩] = [⟨0, max 2 5⟩] ∧
    mergeAll [⟨0, 2⟩, ⟨4, 6⟩] = [⟨0, 2⟩, ⟨4, 6⟩] ∧
    mergeAll [⟨4, 6⟩, ⟨0, 2⟩] = mergeAll [⟨0, 2⟩, ⟨4, 6⟩] :=
  by
  refine ⟨?_, ?_, ?_⟩
  · exact span_merge_correct.1 ⟨0, 2⟩ ⟨2, 5⟩ (by decide) (by decide) (by decide) (by decide)
  · exact span_merge_correct.2.1 ⟨0, 2⟩ ⟨4, 6⟩ (by decide) (by decide) (by decide)
  · exact span_merge_correct.2.2 [⟨4, 6⟩, ⟨0, 2⟩] [⟨0, 2⟩, ⟨4, 6⟩] (by decide)
      (List.Perm.swap (⟨0, 2⟩ : Span) (⟨4, 6⟩ : Span) [])

/-! ### The cue grouper: empty token set (C2) -/

/-- Counterexample to claim C2 as stated: with an empty token set and
`showFullTranscript = true` the grouper does not return zero windows — it
returns one full-transcript window (here at the empty cue list). -/
theorem group_empty_tokens_counterexample :
    getMatchingSubtitles [] [] true ≠ [] := by decide

/-- Claim C2 as amended: with an empty token set the grouper returns no
windows in snippet mode, but in full-transcript mode it returns exactly one
window with empty `matches` and the whole cue list as `context`. -/
theorem group_empty_tokens :
    ∀ subs : List ParsedSubtitle,
      getMatchingSubtitles subs [] false = [] ∧
      getMatchingSubtitles subs [] true = [⟨[], subs⟩] := by
  intro subs
  constructor
  · simp [getMatchingSubtitles]
  · simp [getMatchingSubtitles]

/-! ### The parser assigns pre-filter block positions (C4) -/

theorem parseBlock_index {i : Nat} {b : List Char} {sub : ParsedSubtitle}
    (h : parseBlock i b = some sub) : sub.index = i := by
  have h' : (if (splitLinesL b).length < 3 then (none : Option ParsedSubtitle)
      else some ⟨i, (splitLinesL b).getD 1 [],
        List.intercalate [' '] ((splitLinesL b).drop 2)⟩) = some sub := h
  split at h'
  · exact absurd h' (by simp)
  · simp only [Option.some.injEq] at h'
    rw [← h']

theorem enum_filterMap_parseBlock :
    ∀ (l : List (List Char)) (i : Nat),
      List.Chain' (fun a b => a.index < b.index)
        ((enumFromL i l).filterMap (fun p => parseBlock p.1 p.2)) ∧
      (∀ sub ∈ (enumFromL i l).filterMap (fun p => parseBlock p.1 p.2),
        i ≤ sub.index ∧ parseBlock sub.index (l.getD (sub.index - i) []) = some sub) := by
  intro l
  induction l with
  | nil => intro i; exact ⟨List.chain'_nil, by simp [enumFromL]⟩
  | cons b bs ih =>
    intro i
    obtain ⟨ihchain, ihmem⟩ := ih (i + 1)
    simp only [enumFromL, List.filterMap_cons]
    cases hpb : parseBlock i b with
    | none =>
      refine ⟨ihchain, ?_⟩
      intro sub hsub
      obtain ⟨hge, heq⟩ := ihmem sub hsub
      refine ⟨by omega, ?_⟩
      have hidx : sub.index - i = (sub.index - (i + 1)) + 1 := by omega
      rw [hidx]
      simpa using heq
    | some c =>
      have hc : c.index = i := parseBlock_index hpb
      constructor
      · rw [List.chain'_cons']
        refine ⟨?_, ihchain⟩
        intro h hh
        have hmem : h ∈ (enumFromL (i + 1) bs).filterMap (fun p => parseBlock p.1 p.2) :=
          List.mem_of_mem_head? hh
        have := (ihmem h hmem).1
        omega
      · intro sub hsub
        rcases List.mem_cons.mp hsub with hl | hr
        · subst hl
          rw [hc]
          refine ⟨Nat.le_refl _, ?_⟩
          simpa using hpb
        · obtain ⟨hge, heq⟩ := ihmem sub hr
          refine ⟨by omega, ?_⟩
          have hidx : sub.index - i = (sub.index - (i + 1)) + 1 := by omega
          rw [hidx]
          simpa using heq

/-- Counterexample to claim C4 as stated: at `badRaw` (header, then a
malformed one-line block, then one well-formed block) the kept cues' index
list is not `0, 1, 2, ...` — the single kept cue has index 1, not 0. -/
theorem parse_dense_indices_counterexample :
    ¬ ((parseSubtitles badRaw).map (fun s => s.index) =
        List.range (parseSubtitles badRaw).length) := by decide

/-- Claim C4 as amended: `parseSubtitles` assigns each kept cue the
position of its block among the post-header blocks *before* malformed
blocks are dropped: indices are strictly increasing, and re-parsing the
block at a cue's stored index reproduces that cue — but indices may skip
values where malformed blocks were discarded, so they are not dense over
the kept cues. -/
theorem parse_indices_are_block_positions :
    ∀ raw : List Char,
      List.Chain' (fun a b => a.index < b.index) (parseSubtitles raw) ∧
      ∀ sub ∈ parseSubtitles raw,
        parseBlock sub.index (((splitBlocks raw).drop 1).getD sub.index []) = some sub := by
  intro raw
  unfold parseSubtitles
  by_cases hr : raw.isEmpty
  · simp [hr]
  · rw [Bool.not_eq_true] at hr
    rw [hr]
    simp only [Bool.false_eq_true, if_false]
    obtain ⟨hchain, hmem⟩ := enum_filterMap_parseBlock ((splitBlocks raw).drop 1) 0
    refine ⟨hchain, ?_⟩
    intro sub hsub
    have := (hmem sub hsub).2
    simpa using this

/-- Witness for the amended C4 at `badRaw`: the kept cue stores index 1 and
block 1 re-parses to it. -/
theorem parse_indices_are_block_positions_witness :
    parseBlock (⟨1, "00:00".data, "hello".data⟩ : ParsedSubtitle).index
        (((splitBlocks badRaw).drop 1).getD
          (⟨1, "00:00".data, "hello".data⟩ : ParsedSubtitle).index []) =
      some ⟨1, "00:00".data, "hello".data⟩ :=
  (parse_indices_are_block_positions badRaw).2 ⟨1, "00:00".data, "hello".data⟩ (by decide)

/-! ### The match/context index mix-up (C3) -/

/-- Claim C3 fails on the code: at `badRaw` the parser drops the malformed
block, so the kept cue's stored index (1) differs from its list position
(0); `createChunk` collects `matches` by list position but filters
`context` by stored index, and the same cue lands in both lists of the one
returned window. -/
theorem chunk_match_in_context_bug :
    (getMatchingSubtitles (parseSubtitles badRaw) [tokHello] false).length = 1 ∧
    ∃ sub,
      sub ∈ ((getMatchingSubtitles (parseSubtitles badRaw) [tokHello] false).headD
        ⟨[], []⟩).«matches» ∧
      sub ∈ ((getMatchingSubtitles (parseSubtitles badRaw) [tokHello] false).headD
        ⟨[], []⟩).context :=
  ⟨by decide, ⟨1, "00:00".data, "hello".data⟩, by decide, by decide⟩

/-! ### Short-query passthrough in `MainPage.search` (C8) -/

/-- Claim C8: a (trimmed) query of fewer than 3 characters yields an empty
token list and passes the full input list through, narrowed only by the
manual broadcast selection; with no manual selection the items are exactly
the input, never an empty no-matches result. -/
theorem main_search_short_query :
    ∀ (searchFn : List Char → List TVItemL → Bool → SearchResultL) (query : List Char)
      (data : List TVItemL) (selected : List (List Char)) (subs : Bool),
      query.length < 3 →
      (mainPageSearch searchFn query data selected subs).tokens = [] ∧
      (mainPageSearch searchFn query data selected subs).items =
        (if selected.isEmpty then data
          else data.filter (fun it => selected.contains it.title)) ∧
      (selected = [] → (mainPageSearch searchFn query data selected subs).items = data) := by
  intro searchFn query data selected subs hq
  unfold mainPageSearch
  rw [if_pos hq]
  refine ⟨rfl, rfl, ?_⟩
  intro hsel
  simp [hsel]

/-- Witness for C8 at a concrete input: the two-character query `ab` over a
one-item list with no manual selection. -/
theorem main_search_short_query_witness :
    (mainPageSearch (fun _ _ _ => ⟨[], []⟩) "ab".data [⟨"t".data, "d".data, none⟩] []
        true).tokens = [] ∧
    (mainPageSearch (fun _ _ _ => ⟨[], []⟩) "ab".data [⟨"t".data, "d".data, none⟩] []
        true).items =
      (if ([] : List (List Char)).isEmpty then [(⟨"t".data, "d".data, none⟩ : TVItemL)]
        else [(⟨"t".data, "d".data, none⟩ : TVItemL)].filter
          (fun it => ([] : List (List Char)).contains it.title)) ∧
    (([] : List (List Char)) = [] →
      (mainPageSearch (fun _ _ _ => ⟨[], []⟩) "ab".data [⟨"t".data, "d".data, none⟩] []
        true).items = [⟨"t".data, "d".data, none⟩]) :=
  main_search_short_query (fun _ _ _ => ⟨[], []⟩) "ab".data [⟨"t".data, "d".data, none⟩] []
    true (by decide)

/-! ### The grouping walk (C9) -/

theorem groupLoop_flatten (gap : Nat) :
    ∀ (rest cur : List Nat) (last : Nat), (groupLoop gap cur last rest).flatten = cur ++ rest := by
  intro rest
  induction rest with
  | nil => intro cur last; simp [groupLoop]
  | cons idx r ih =>
    intro cur last
    by_cases h : idx ≤ last + gap
    · rw [show groupLoop gap cur last (idx :: r) = groupLoop gap (cur ++ [idx]) idx r from by
        simp [groupLoop, h]]
      rw [ih (cur ++ [idx]) idx]
      simp
    · rw [show groupLoop gap cur last (idx :: r) = cur :: groupLoop gap [idx] idx r from by
        simp [groupLoop, h]]
      rw [List.flatten_cons, ih [idx] idx]
      simp

theorem groupIndices_flatten (gap : Nat) :
    ∀ s : List Nat, (groupIndices gap s).flatten = s := by
  intro s
  cases s with
  | nil => rfl
  | cons idx r => simpa using groupLoop_flatten gap r [idx] idx

theorem groupLoop_groups (gap : Nat) :
    ∀ (rest cur : List Nat) (last : Nat), cur ≠ [] → cur.getLast? = some last →
      List.Chain' (fun a b => b ≤ a + gap) cur →
      ∀ g ∈ groupLoop gap cur last rest,
        g ≠ [] ∧ List.Chain' (fun a b => b ≤ a + gap) g := by
  intro rest
  induction rest with
  | nil =>
    intro cur last hne hlast hchain g hg
    simp only [groupLoop, List.mem_singleton] at hg
    exact hg ▸ ⟨hne, hchain⟩
  | cons idx r ih =>
    intro cur last hne hlast hchain g hg
    by_cases h : idx ≤ last + gap
    · rw [show groupLoop gap cur last (idx :: r) = groupLoop gap (cur ++ [idx]) idx r from by
        simp [groupLoop, h]] at hg
      refine ih (cur ++ [idx]) idx (by simp) (List.getLast?_concat cur) ?_ g hg
      rw [List.chain'_append]
      refine ⟨hchain, List.chain'_singleton idx, ?_⟩
      intro x hx y hy
      rw [hlast] at hx
      simp only [Option.mem_def, Option.some.injEq] at hx
      simp only [List.head?_cons, Option.mem_def, Option.some.injEq] at hy
      subst hx
      subst hy
      exact h
    · rw [show groupLoop gap cur last (idx :: r) = cur :: groupLoop gap [idx] idx r from by
        simp [groupLoop, h]] at hg
      rcases List.mem_cons.mp hg with hl | hr
      · exact hl ▸ ⟨hne, hchain⟩
      · exact ih [idx] idx (by simp) rfl (List.chain'_singleton idx) g hr

theorem groupLoop_head (gap : Nat) :
    ∀ (rest cur : List Nat) (last : Nat), cur ≠ [] →
      ∃ g t, groupLoop gap cur last rest = g :: t ∧ g.head? = cur.head? := by
  intro rest
  induction rest with
  | nil => intro cur last _; exact ⟨cur, [], rfl, rfl⟩
  | cons idx r ih =>
    intro cur last hne
    by_cases h : idx ≤ last + gap
    · obtain ⟨g, t, heq, hh⟩ := ih (cur ++ [idx]) idx (by simp)
      refine ⟨g, t, by simp [groupLoop, h, heq], ?_⟩
      rw [hh]
      obtain ⟨c, cs, rfl⟩ := List.exists_cons_of_ne_nil hne
      rfl
    · exact ⟨cur, groupLoop gap [idx] idx r, by simp [groupLoop, h], rfl⟩

theorem groupLoop_boundaries (gap : Nat) :
    ∀ (rest cur : List Nat) (last : Nat), cur ≠ [] → cur.getLast? = some last →
      List.Chain' (fun g1 g2 => g1.getLastD 0 + gap < g2.headD 0)
        (groupLoop gap cur last rest) := by
  intro rest
  induction rest with
  | nil => intro cur last _ _; exact List.chain'_singleton cur
  | cons idx r ih =>
    intro cur last hne hlast
    by_cases h : idx ≤ last + gap
    · rw [show groupLoop gap cur last (idx :: r) = groupLoop gap (cur ++ [idx]) idx r from by
        simp [groupLoop, h]]
      exact ih (cur ++ [idx]) idx (by simp) (List.getLast?_concat cur)
    · rw [show groupLoop gap cur last (idx :: r) = cur :: groupLoop gap [idx] idx r from by
        simp [groupLoop, h]]
      obtain ⟨g, t, heq, hh⟩ := groupLoop_head gap r [idx] idx (by simp)
      rw [heq, List.chain'_cons']
      constructor
      · intro y hy
        rw [List.head?_cons, Option.mem_def, Option.some.injEq] at hy
        subst hy
        rw [List.getLastD_eq_getLast?, hlast, Option.getD_some]
        have hg : g.headD 0 = idx := by
          rw [List.headD_eq_head?, hh]
          rfl
        rw [hg]
        omega
      · rw [← heq]
        exact ih [idx] idx (by simp) rfl

theorem groupIndices_groups (gap : Nat) :
    ∀ (s g : List Nat), g ∈ groupIndices gap s →
      g ≠ [] ∧ List.Chain' (fun a b => b ≤ a + gap) g := by
  intro s g hg
  cases s with
  | nil => simp [groupIndices] at hg
  | cons idx r =>
    exact groupLoop_groups gap r [idx] idx (by simp) rfl (List.chain'_singleton idx) g hg

theorem groupIndices_boundaries (gap : Nat) :
    ∀ s : List Nat,
      List.Chain' (fun g1 g2 => g1.getLastD 0 + gap < g2.headD 0) (groupIndices gap s) := by
  intro s
  cases s with
  | nil => exact List.chain'_nil
  | cons idx r => exact groupLoop_boundaries gap r [idx] idx (by simp) rfl

/-! ### Window coverage on canonical cue lists (C9) -/

theorem range'_take : ∀ (m a k : Nat), (List.range' a m).take k = List.range' a (min k m) := by
  intro m
  induction m with
  | zero => intro a k; simp
  | succ m ih =>
    intro a k
    cases k with
    | zero => simp
    | succ k =>
      rw [List.range'_succ, List.take_succ_cons, ih (a + 1) k]
      rw [Nat.succ_min_succ, List.range'_succ]

theorem range'_drop : ∀ (m a k : Nat), (List.range' a m).drop k = List.range' (a + k) (m - k) := by
  intro m
  induction m with
  | zero => intro a k; simp
  | succ m ih =>
    intro a k
    cases k with
    | zero => simp
    | succ k =>
      rw [List.range'_succ, List.drop_succ_cons, ih (a + 1) k]
      congr 1 <;> omega

theorem chainLt_head_le :
    ∀ (t : List Nat) (h : Nat), List.Chain' (fun a b => a < b) (h :: t) →
      ∀ j ∈ h :: t, h ≤ j := by
  intro t
  induction t with
  | nil => intro h _ j hj; simp at hj; omega
  | cons c t' ih =>
    intro h hchain j hj
    have hhc : h < c := (List.chain'_cons.mp hchain).1
    rcases List.mem_cons.mp hj with hl | hr
    · omega
    · have := ih c (List.chain'_cons.mp hchain).2 j hr
      omega

theorem chainLt_le_last :
    ∀ (l : List Nat), List.Chain' (fun a b => a < b) l →
      ∀ j ∈ l, j ≤ l.getLastD 0 := by
  intro l
  induction l with
  | nil => intro _ j hj; simp at hj
  | cons h t ih =>
    intro hchain j hj
    cases t with
    | nil => simp at hj; simp [hj]
    | cons c t' =>
      have hlast : (h :: c :: t').getLastD 0 = (c :: t').getLastD 0 := by
        simp [List.getLastD_eq_getLast?, List.getLast?]
      rw [hlast]
      rcases List.mem_cons.mp hj with hl | hr
      · have hhc : h < c := (List.chain'_cons.mp hchain).1
        have := ih (List.chain'_cons.mp hchain).2 c (List.mem_cons_self _ _)
        omega
      · exact ih (List.chain'_cons.mp hchain).2 j hr

theorem mkCues_length (txts : List (List Char)) : (mkCues txts).length = txts.length := by
  simp [mkCues]

theorem mkCues_getD {txts : List (List Char)} {i : Nat} (h : i < txts.length) :
    (mkCues txts).getD i dfltCue = ⟨i, [], txts.getD i []⟩ := by
  unfold mkCues
  rw [List.getD_eq_getElem?_getD, List.getElem?_map, List.getElem?_range h]
  rfl

theorem mkCues_slice (txts : List (List Char)) (a k : Nat) :
    ((mkCues txts).drop a).take k =
      (List.range' a (min k (txts.length - a))).map
        (fun i => (⟨i, [], txts.getD i []⟩ : ParsedSubtitle)) := by
  unfold mkCues
  rw [← List.map_drop, ← List.map_take, List.range_eq_range', range'_drop, range'_take]
  simp

theorem getLastD_mem : ∀ (l : List Nat), l ≠ [] → l.getLastD 0 ∈ l := by
  intro l
  induction l with
  | nil => intro h; exact absurd rfl h
  | cons h t ih =>
    intro _
    cases t with
    | nil => simp
    | cons c t' =>
      have : (h :: c :: t').getLastD 0 = (c :: t').getLastD 0 := by
        simp [List.getLastD_eq_getLast?, List.getLast?]
      rw [this]
      exact List.mem_cons_of_mem _ (ih (by simp))

theorem createChunk_matches_eq (subs : List ParsedSubtitle) (mi : List Nat) (cs : Nat) :
    (createChunk subs mi cs).«matches» = mi.map (fun idx => subs.getD idx dfltCue) := rfl

theorem createChunk_context_eq (subs : List ParsedSubtitle) (mi : List Nat) (cs : Nat) :
    (createChunk subs mi cs).context =
      ((subs.drop (mi.headD 0 - cs)).take
          (min (subs.length - 1) (mi.getLastD 0 + cs) + 1 - (mi.headD 0 - cs))).filter
        (fun sub => !(mi.contains sub.index)) := rfl

theorem createChunk_cover :
    ∀ (txts : List (List Char)) (g : List Nat), g ≠ [] →
      List.Chain' (fun a b => a < b) g → (∀ j ∈ g, j < txts.length) →
      ∀ i : Nat,
        ((∃ sub ∈ (createChunk (mkCues txts) g contextSize).«matches», sub.index = i) ∨
          (∃ sub ∈ (createChunk (mkCues txts) g contextSize).context, sub.index = i)) ↔
        (g.headD 0 - contextSize ≤ i ∧
          i ≤ min (txts.length - 1) (g.getLastD 0 + contextSize)) := by
  intro txts g hne hchain hbound i
  have hfirst_mem : g.headD 0 ∈ g := by
    obtain ⟨h0, t0, rfl⟩ := List.exists_cons_of_ne_nil hne
    exact List.mem_cons_self _ _
  have hlast_mem : g.getLastD 0 ∈ g := getLastD_mem g hne
  have hfirst_lt : g.headD 0 < txts.length := hbound _ hfirst_mem
  have hlast_lt : g.getLastD 0 < txts.length := hbound _ hlast_mem
  have hglb : ∀ j ∈ g, g.headD 0 ≤ j ∧ j ≤ g.getLastD 0 := by
    intro j hj
    obtain ⟨h0, t0, rfl⟩ := List.exists_cons_of_ne_nil hne
    exact ⟨chainLt_head_le t0 h0 hchain j hj, chainLt_le_last _ hchain j hj⟩
  have hmatches : (∃ sub ∈ (createChunk (mkCues txts) g contextSize).«matches», sub.index = i)
      ↔ i ∈ g := by
    rw [createChunk_matches_eq]
    constructor
    · rintro ⟨sub, hsub, hidx⟩
      obtain ⟨idx, hidxg, heq⟩ := List.mem_map.mp hsub
      rw [mkCues_getD (hbound idx hidxg)] at heq
      rw [← heq] at hidx
      simp only at hidx
      rw [← hidx]
      exact hidxg
    · intro hig
      refine ⟨⟨i, [], txts.getD i []⟩, ?_, rfl⟩
      rw [List.mem_map]
      exact ⟨i, hig, mkCues_getD (hbound i hig)⟩
  have hcontext : (∃ sub ∈ (createChunk (mkCues txts) g contextSize).context, sub.index = i)
      ↔ (g.headD 0 - contextSize ≤ i ∧
          i ≤ min (txts.length - 1) (g.getLastD 0 + contextSize) ∧ i ∉ g) := by
    rw [createChunk_context_eq, mkCues_length]
    rw [mkCues_slice]
    have hmin : min (min (txts.length - 1) (g.getLastD 0 + contextSize) + 1 -
          (g.headD 0 - contextSize)) (txts.length - (g.headD 0 - contextSize)) =
        min (txts.length - 1) (g.getLastD 0 + contextSize) + 1 - (g.headD 0 - contextSize) := by
      omega
    rw [hmin]
    constructor
    · rintro ⟨sub, hsub, hidx⟩
      rw [List.mem_filter] at hsub
      obtain ⟨hmem, hpred⟩ := hsub
      obtain ⟨j, hj, heq⟩ := List.mem_map.mp hmem
      rw [List.mem_range'_1] at hj
      rw [← heq] at hidx hpred
      simp only at hidx hpred
      rw [← hidx]
      have hnotin : j ∉ g := by
        intro hj'
        rw [Bool.not_eq_true'] at hpred
        have : g.contains j = true := List.elem_iff.mpr hj'
        rw [this] at hpred
        exact absurd hpred (by simp)
      refine ⟨hj.1, by omega, hnotin⟩
    · rintro ⟨ha, hb, hnotin⟩
      refine ⟨⟨i, [], txts.getD i []⟩, ?_, rfl⟩
      rw [List.mem_filter]
      constructor
      · rw [List.mem_map]
        refine ⟨i, ?_, rfl⟩
        rw [List.mem_range'_1]
        exact ⟨ha, by omega⟩
      · simp only [Bool.not_eq_true']
        cases hcc : g.contains i
        · rfl
        · exact absurd (List.elem_iff.mp hcc) hnotin
  rw [hmatches, hcontext]
  constructor
  · rintro (hig | ⟨ha, hb, _⟩)
    · have := hglb i hig
      have := hbound i hig
      omega
    · omega
  · rintro ⟨ha, hb⟩
    by_cases hig : i ∈ g
    · exact Or.inl hig
    · exact Or.inr ⟨ha, hb, hig⟩

/-- Claim C9: the snippet-mode grouping and windowing behaviour.  The
grouping walk partitions the sorted match positions in order (flatten),
keeps an index in the current group exactly when it is at most
`contextSize * 2 = 10` beyond the group's last accumulated index
(within-group chain), starts a new group otherwise (between-group chain),
and each group's window covers exactly the cue positions
`[firstMatch - contextSize, lastMatch + contextSize]` clamped to the valid
range (coverage, on a well-formed cue list).  Concretely: with cues 0..20
and a single match at cue 10 there is one window with `matches = [cue 10]`
and `context = cues 5..9 and 11..15`; a second match at cue 18 (8 away)
joins the same window; with cues 0..30 a second match at cue 30 (20 away)
starts a new window. -/
theorem snippet_grouping_spec :
    (contextSize * 2 = 10) ∧
    (∀ s : List Nat, (groupIndices (contextSize * 2) s).flatten = s) ∧
    (∀ s g : List Nat, g ∈ groupIndices (contextSize * 2) s →
        g ≠ [] ∧ List.Chain' (fun a b => b ≤ a + contextSize * 2) g) ∧
    (∀ s : List Nat,
        List.Chain' (fun g1 g2 => g1.getLastD 0 + contextSize * 2 < g2.headD 0)
          (groupIndices (contextSize * 2) s)) ∧
    (∀ (txts : List (List Char)) (g : List Nat), g ≠ [] →
        List.Chain' (fun a b => a < b) g → (∀ j ∈ g, j < txts.length) →
        ∀ i : Nat,
          ((∃ sub ∈ (createChunk (mkCues txts) g contextSize).«matches», sub.index = i) ∨
            (∃ sub ∈ (createChunk (mkCues txts) g contextSize).context, sub.index = i)) ↔
          (g.headD 0 - contextSize ≤ i ∧
            i ≤ min (txts.length - 1) (g.getLastD 0 + contextSize))) ∧
    (getMatchingSubtitles (mkCues txtsA) [tokB] false =
      [⟨[⟨10, [], ['b']⟩],
        [5, 6, 7, 8, 9, 11, 12, 13, 14, 15].map
          (fun i => (⟨i, [], ['a']⟩ : ParsedSubtitle))⟩]) ∧
    ((getMatchingSubtitles (mkCues txtsB) [tokB] false).length = 1 ∧
      ((getMatchingSubtitles (mkCues txtsB) [tokB] false).headD ⟨[], []⟩).«matches» =
        [⟨10, [], ['b']⟩, ⟨18, [], ['b']⟩]) ∧
    ((getMatchingSubtitles (mkCues txtsC) [tokB] false).length = 2 ∧
      (getMatchingSubtitles (mkCues txtsC) [tokB] false).map Window.«matches» =
        [[⟨10, [], ['b']⟩], [⟨30, [], ['b']⟩]]) := by
  refine ⟨rfl, groupIndices_flatten _, groupIndices_groups _, groupIndices_boundaries _,
    createChunk_cover, ?_, ?_, ?_⟩
  · decide
  · decide
  · decide

/-- Witness for C9's hypothesis-bearing coverage conjunct at a concrete
input: the window of group `[3, 5]` over six one-character cues covers
exactly positions 0..5, checked at position 4. -/
theorem snippet_grouping_spec_witness :
    ((∃ sub ∈ (createChunk (mkCues [['a'], ['a'], ['a'], ['a'], ['a'], ['a']]) [3, 5]
        contextSize).«matches», sub.index = 4) ∨
      (∃ sub ∈ (createChunk (mkCues [['a'], ['a'], ['a'], ['a'], ['a'], ['a']]) [3, 5]
        contextSize).context, sub.index = 4)) ↔
    (([3, 5] : List Nat).headD 0 - contextSize ≤ 4 ∧
      4 ≤ min ([['a'], ['a'], ['a'], ['a'], ['a'], ['a']].length - 1)
        (([3, 5] : List Nat).getLastD 0 + contextSize)) :=
  snippet_grouping_spec.2.2.2.2.1 [['a'], ['a'], ['a'], ['a'], ['a'], ['a']] [3, 5]
    (by decide) (List.chain'_cons.mpr ⟨by omega, List.chain'_singleton 5⟩) (by decide) 4
